import Mathlib

/-!
# Verification of the HDR histogram traversal cursors (`toolbox/hdr/Iterator.cpp`)

This file gives a shallow embedding of the cursor state machine implemented in
`src/toolbox/hdr/Iterator.cpp` and proves properties of its three traversal
policies (`AllValuesIterator`, `RecordedIterator`, `PercentileIterator`).

Modelling conventions:
* machine integers (`int64_t`) are modelled by `Nat`/`Int` (counts are
  non-negative by the histogram invariant, so running totals live in `Nat`;
  `count_added_in_this_iter_step`, a difference, lives in `Int`;
  `visited_index_`, initialised to `-1`, lives in `Int`);
* `double` arithmetic on percentiles is modelled by exact `ℚ` arithmetic
  (`x / 0` is the junk value `0` rather than IEEE `NaN`/`inf`; where a claim
  depends on a division by zero we reason about the *occurrence* of the
  division, never about the junk value);
* the one genuinely transcendental expression in the source — the
  `pow`/`log` computation of `PercentileIterator::increment_iteration_level` —
  is additionally embedded verbatim over `ℝ` (`advanceTargetSrc`) and related
  by proof to the exact rational form used in the executable machine;
* the C++ `while` loop of `operator++` is embedded as a fuel-indexed
  recursion (`advance`, `runAux`); `none` means the fuel ran out, `some`
  means the loop genuinely finished, so every theorem about a `some` result
  speaks about a real, complete execution of the loop.
-/

set_option autoImplicit false

namespace Toolbox.Hdr

/-- Modelled from the spec: the histogram itself (`Histogram.hpp`/`Histogram.cpp`)
is an excluded collaborator that is not part of the sources under verification.
Per spec §3 it owns an ordered sequence of non-negative slot counts indexed
`0 .. counts_len - 1`, with `total_count` equal to the sum of all slot counts,
and a value↔index mapping fixed at construction.  `bucketVal i` abstracts the
composite `get_highest_equivalent_value (get_value_from_index i)`, i.e. the
value the cursor reports for bucket `i` (the iterator only ever uses this
composite, via `get_value_iterated_to`, and `get_value_from_index 0 = 0`
matches the `value_at_index_{0}` initialiser).  `intToDoubleConversionRatio`
is the conversion ratio copied into each cursor at construction. -/
structure HdrHistogram where
  counts : List Nat
  bucketVal : Nat → Nat
  intToDoubleConversionRatio : ℚ

namespace HdrHistogram

/-- `counts_len`: the fixed number of slots (spec §3). -/
def countsLen (h : HdrHistogram) : Nat := h.counts.length

/-- `total_count_`: by the spec §3 invariant, the sum of all slot counts. -/
def totalCount (h : HdrHistogram) : Nat := h.counts.sum

/-- `get_count_at_index`: the stored count of slot `i`. -/
def countAt (h : HdrHistogram) (i : Nat) : Nat := h.counts.getD i 0

end HdrHistogram

/-- `HdrIterationValue` (Iterator.cpp:33–45): the snapshot populated by
`HdrIterationValue::set` at each emission. -/
structure HdrIterationValue where
  valueIteratedTo : Nat
  valueIteratedFrom : Nat
  countAtValueIteratedTo : Nat
  countAddedInThisIterStep : Int
  totalCountToThisValue : Nat
  totalValueToThisValue : Nat
  percentile : ℚ
  percentileLevelIteratedTo : ℚ
  intToDoubleConversionRatio : ℚ
  deriving Repr, DecidableEq

instance : Inhabited HdrIterationValue :=
  ⟨⟨0, 0, 0, 0, 0, 0, 0, 0, 0⟩⟩

/-- The mutable cursor state shared by all three policies: the fields of
`HdrIterator` (with the `AllValuesIterator` field `visited_index_` and the
`PercentileIterator` fields included, mirroring the single-inheritance chain).
Modelled from the spec: the field initialisers live in the header
`Iterator.hpp`, which is not among the sources; the initial values below are
the ones the spec §3/§4 requires (index `0`, all running totals `0`, fresh
flag set, `visited_index_ = -1`, percentile target `0`, terminal-step flag
clear, end flag clear). -/
structure HdrIterState where
  currentIndex : Nat
  countAtThisValue : Nat
  totalToCurrent : Nat
  totalToPrev : Nat
  valueToIndex : Nat
  freshSubBucket : Bool
  prevValueIteratedTo : Nat
  endFlag : Bool
  visitedIndex : Int
  percentileToIterateTo : ℚ
  percentileToIterateFrom : ℚ
  reachedLast : Bool
  current : HdrIterationValue
  deriving Repr, DecidableEq

/-- The initial cursor state (constructor `HdrIterator::HdrIterator(hist)`
plus the in-class field initialisers of `Iterator.hpp`, modelled from the
spec as documented on `HdrIterState`). -/
def initState : HdrIterState :=
  { currentIndex := 0
    countAtThisValue := 0
    totalToCurrent := 0
    totalToPrev := 0
    valueToIndex := 0
    freshSubBucket := true
    prevValueIteratedTo := 0
    endFlag := false
    visitedIndex := -1
    percentileToIterateTo := 0
    percentileToIterateFrom := 0
    reachedLast := false
    current := default }

/-- The three traversal policies: `AllValuesIterator`, `RecordedIterator`,
`PercentileIterator`. -/
inductive Policy
  | allValues
  | recorded
  | percentile
  deriving Repr, DecidableEq

/-- The virtual `has_next` of each policy.  It returns the boolean answer
*and* the (possibly mutated) state, because the source mutates state inside
this logically-const query:
* `AllValuesIterator::has_next` (Iterator.cpp:141–148, inherited by
  `RecordedIterator`): true while `current_index_ < counts_len - 1`; sets
  `end_` when false;
* `PercentileIterator::has_next` (Iterator.cpp:192–207): true while the base
  test `total_count_to_current_index_ < total_count_` holds; otherwise, if the
  terminal 100% step is still owed and `total_count_` is nonzero, it forces
  one extra continuation with the target set to `100.0`; otherwise sets
  `end_`. -/
def hasNext : Policy → HdrHistogram → HdrIterState → Bool × HdrIterState
  | .allValues, h, s =>
      if s.currentIndex < h.countsLen - 1 then (true, s)
      else (false, { s with endFlag := true })
  | .recorded, h, s =>
      if s.currentIndex < h.countsLen - 1 then (true, s)
      else (false, { s with endFlag := true })
  | .percentile, h, s =>
      if s.totalToCurrent < h.totalCount then (true, s)
      else if s.reachedLast = false ∧ h.totalCount ≠ 0 then
        (true, { s with percentileToIterateTo := 100, reachedLast := true })
      else (false, { s with endFlag := true })

/-- The virtual `reached_iteration_level` of each policy:
* `AllValuesIterator` (Iterator.cpp:150–153): emit at every not-yet-visited
  index;
* `RecordedIterator` (Iterator.cpp:167–171): additionally require a nonzero
  count at the current index;
* `PercentileIterator` (Iterator.cpp:209–216): require a nonzero
  `count_at_this_value_` and the cumulative percentile
  `100 * total_count_to_current_index_ / total_count_` to have reached the
  current target. -/
def reachedIterationLevel : Policy → HdrHistogram → HdrIterState → Bool
  | .allValues, _, s => s.visitedIndex != (s.currentIndex : Int)
  | .recorded, h, s =>
      (h.countAt s.currentIndex != 0) && (s.visitedIndex != (s.currentIndex : Int))
  | .percentile, h, s =>
      (s.countAtThisValue != 0)
        && decide (s.percentileToIterateTo
              ≤ 100 * (s.totalToCurrent : ℚ) / (h.totalCount : ℚ))

/-- The virtual `get_percentile_iterated_to`: the base version
(Iterator.cpp:70–73) reports the achieved cumulative percentile, the
`PercentileIterator` override (Iterator.cpp:218–221) reports the current
target. -/
def getPercentileIteratedTo : Policy → HdrHistogram → HdrIterState → ℚ
  | .percentile, _, s => s.percentileToIterateTo
  | _, h, s => 100 * (s.totalToCurrent : ℚ) / (h.totalCount : ℚ)

/-- The exact-rational form of the target-advance recurrence of
`PercentileIterator::increment_iteration_level` (Iterator.cpp:228–237):
if the gap `100 - t` is zero the target is unchanged, otherwise the source
adds `100 / (k * 2 ^ (log2 (100 / gap) + 1))`, which for a positive gap
equals `gap / (2 * k)` (proved against the verbatim real-number embedding
`advanceTargetSrc` in `advanceTarget_eq_src` below). -/
def advanceTarget (k t : ℚ) : ℚ :=
  if 100 - t = 0 then t else t + (100 - t) / (2 * k)

/-- The virtual `increment_iteration_level`:
* `AllValuesIterator` (Iterator.cpp:155–158, inherited by
  `RecordedIterator`): record the current index as visited;
* `PercentileIterator` (Iterator.cpp:228–237): save the old target and
  advance the target toward 100. -/
def incrementIterationLevel (k : ℚ) : Policy → HdrIterState → HdrIterState
  | .allValues, s => { s with visitedIndex := (s.currentIndex : Int) }
  | .recorded, s => { s with visitedIndex := (s.currentIndex : Int) }
  | .percentile, s =>
      { s with percentileToIterateFrom := s.percentileToIterateTo
               percentileToIterateTo := advanceTarget k s.percentileToIterateTo }

/-- `HdrIterator::increment_sub_bucket` (Iterator.cpp:126–132): move to the
next index and mark it fresh (the value-bound fields it recomputes are
represented by `HdrHistogram.bucketVal` applied to the current index). -/
def incrementSubBucket (s : HdrIterState) : HdrIterState :=
  { s with freshSubBucket := true, currentIndex := s.currentIndex + 1 }

/-- `HdrIterationValue::set` (Iterator.cpp:33–45), evaluated on the state at
emission time (before `prev_value_iterated_to_` and
`total_count_to_prev_index_` are updated, exactly as in `operator++`). -/
def mkSnapshot (p : Policy) (h : HdrHistogram) (s : HdrIterState) (v : Nat) :
    HdrIterationValue :=
  { valueIteratedTo := v
    valueIteratedFrom := s.prevValueIteratedTo
    countAtValueIteratedTo := s.countAtThisValue
    countAddedInThisIterStep := (s.totalToCurrent : Int) - (s.totalToPrev : Int)
    totalCountToThisValue := s.totalToCurrent
    totalValueToThisValue := s.valueToIndex
    percentile := 100 * (s.totalToCurrent : ℚ) / (h.totalCount : ℚ)
    percentileLevelIteratedTo := getPercentileIteratedTo p h s
    intToDoubleConversionRatio := h.intToDoubleConversionRatio }

/-- Result of one pass through the body of the `while` loop of
`HdrIterator::operator++`: the loop stops (`has_next` said no), emits a
snapshot and returns, or advances to the next sub-bucket and keeps looping. -/
inductive StepRes
  | stop
  | next
  | emit (v : HdrIterationValue)
  deriving Repr, DecidableEq

/-- Lines 103–108 of `operator++`: read the count at the current index into
`count_at_this_value_` and, if the sub-bucket is fresh, fold it into the
running cumulative count and the running weighted sum, clearing the flag. -/
def foldStep (h : HdrHistogram) (s : HdrIterState) : HdrIterState :=
  let s2 := { s with countAtThisValue := h.countAt s.currentIndex }
  if s2.freshSubBucket then
    { s2 with
      totalToCurrent := s2.totalToCurrent + s2.countAtThisValue
      valueToIndex :=
        s2.valueToIndex + s2.countAtThisValue * h.bucketVal s2.currentIndex
      freshSubBucket := false }
  else s2

/-- One pass through the loop of `HdrIterator::operator++`
(Iterator.cpp:100–124): check `has_next` (which may mutate state), fold the
current count (`foldStep`), then either emit (populating the snapshot,
recording the previous-emission fields, and advancing the policy's iteration
level) or step to the next sub-bucket. -/
def loopBody (p : Policy) (k : ℚ) (h : HdrHistogram) (s : HdrIterState) :
    StepRes × HdrIterState :=
  let hn := hasNext p h s
  if hn.1 then
    let s3 := foldStep h hn.2
    if reachedIterationLevel p h s3 then
      let v := h.bucketVal s3.currentIndex
      let snap := mkSnapshot p h s3 v
      let s4 := { s3 with
        current := snap
        prevValueIteratedTo := v
        totalToPrev := s3.totalToCurrent }
      (.emit snap, incrementIterationLevel k p s4)
    else
      (.next, incrementSubBucket s3)
  else
    (.stop, hn.2)

/-- One advance request (`HdrIterator::operator++`), as a fuel-indexed
recursion over `loopBody`: `some (some v, s)` means the call emitted snapshot
`v`, `some (none, s)` means the loop exited without emitting (normal end of
traversal), `none` means the fuel ran out before the loop finished. -/
def advance (p : Policy) (k : ℚ) (h : HdrHistogram) :
    Nat → HdrIterState → Option (Option HdrIterationValue × HdrIterState)
  | 0, _ => none
  | fuel + 1, s =>
      match loopBody p k h s with
      | (.stop, s1) => some (none, s1)
      | (.emit v, s1) => some (some v, s1)
      | (.next, s1) => advance p k h fuel s1

/-- The emission sequence of a complete traversal started from state `s`:
repeatedly execute the loop of `operator++`, collecting every emitted
snapshot, until `has_next` ends the traversal.  `some es` means the
traversal genuinely completed within the given fuel with emissions `es`. -/
def runAux (p : Policy) (k : ℚ) (h : HdrHistogram) :
    Nat → HdrIterState → Option (List HdrIterationValue)
  | 0, _ => none
  | fuel + 1, s =>
      match loopBody p k h s with
      | (.stop, _) => some []
      | (.emit v, s1) => (runAux p k h fuel s1).map (v :: ·)
      | (.next, s1) => runAux p k h fuel s1

/-- The emission sequence of a complete traversal of a fresh cursor. -/
def emissions (p : Policy) (k : ℚ) (h : HdrHistogram) (fuel : Nat) :
    Option (List HdrIterationValue) :=
  runAux p k h fuel initState

/-- Both `operator==` overloads (Iterator.cpp:173–176 for `RecordedIterator`,
Iterator.cpp:239–242 for `PercentileIterator`): two cursors of the same
policy are equal exactly when their `end_` flags agree. -/
def iterEq (lhs rhs : HdrIterState) : Bool :=
  lhs.endFlag == rhs.endFlag

/-- The verbatim real-number embedding of the `else` arithmetic of
`PercentileIterator::increment_iteration_level` (Iterator.cpp:231–236):
`half_distance = pow(2, log(100/gap)/log 2 + 1)`,
`ticks = k * half_distance`, `next = t + 100 / ticks`. -/
noncomputable def advanceTargetSrc (k t : ℝ) : ℝ :=
  let gap := 100 - t
  if gap = 0 then t
  else
    let halfDistance := (2 : ℝ) ^ (Real.log (100 / gap) / Real.log 2 + 1)
    let reportingTicks := k * halfDistance
    t + 100 / reportingTicks

/-! ## Basic helper lemmas -/

/-- Setting the end flag of an already-ended cursor changes nothing. -/
lemma setEnd_eq_self {s : HdrIterState} (hs : s.endFlag = true) :
    ({ s with endFlag := true } : HdrIterState) = s := by
  cases s
  simp_all

/-- If `has_next` answers `false`, the state it returns is the input state
with the end flag set (for every policy). -/
lemma hasNext_false {p : Policy} {h : HdrHistogram} {s : HdrIterState}
    (hfalse : (hasNext p h s).1 = false) :
    hasNext p h s = (false, { s with endFlag := true }) := by
  cases p <;> simp only [hasNext] at hfalse ⊢
  · split at hfalse <;> simp_all
  · split at hfalse <;> simp_all
  · split at hfalse
    · simp_all
    · rename_i h1
      split at hfalse
      · simp_all
      · rename_i h2
        rw [if_neg h1, if_neg h2]

/-- The prefix sum of the count table: the total of the counts at indices
`0 .. n-1` (spec §3: this is the number of values recorded below index `n`). -/
def pfx (h : HdrHistogram) (n : Nat) : Nat := (h.counts.take n).sum

/-- The weighted prefix sum: `Σ_{i<n} countAt i * bucketVal i`. -/
def wpfx (h : HdrHistogram) (n : Nat) : Nat :=
  ((List.range n).map (fun i => h.countAt i * h.bucketVal i)).sum

lemma pfx_succ (h : HdrHistogram) (n : Nat) :
    pfx h (n + 1) = pfx h n + h.countAt n := by
  simp only [pfx, HdrHistogram.countAt, List.take_succ, List.sum_append]
  congr 1
  cases hn : h.counts[n]? <;> simp [List.getD, hn]

lemma wpfx_succ (h : HdrHistogram) (n : Nat) :
    wpfx h (n + 1) = wpfx h n + h.countAt n * h.bucketVal n := by
  simp [wpfx, List.range_succ]

lemma pfx_le_totalCount (h : HdrHistogram) (n : Nat) :
    pfx h n ≤ h.totalCount := by
  have := List.take_append_drop n h.counts
  have hsum : (h.counts.take n).sum + (h.counts.drop n).sum = h.counts.sum := by
    conv_rhs => rw [← this]
    rw [List.sum_append]
  simp only [pfx, HdrHistogram.totalCount]
  omega

lemma pfx_of_le (h : HdrHistogram) {n : Nat} (hn : h.countsLen ≤ n) :
    pfx h n = h.totalCount := by
  simp [pfx, HdrHistogram.totalCount, List.take_of_length_le hn]

/-! ## Fuel monotonicity and run determinism -/

lemma runAux_mono (p : Policy) (k : ℚ) (h : HdrHistogram) :
    ∀ {f g : Nat} {s : HdrIterState} {es : List HdrIterationValue},
      runAux p k h f s = some es → f ≤ g → runAux p k h g s = some es := by
  intro f
  induction f with
  | zero => intro g s es hrun; simp [runAux] at hrun
  | succ f ih =>
      intro g s es hrun hfg
      obtain ⟨g', rfl⟩ : ∃ g', g = g' + 1 := ⟨g - 1, by omega⟩
      have hfg' : f ≤ g' := by omega
      simp only [runAux] at hrun ⊢
      rcases hb : loopBody p k h s with ⟨r, s1⟩
      rw [hb] at hrun
      cases r with
      | stop => exact hrun
      | next => exact ih hrun hfg'
      | emit v =>
          simp only [Option.map_eq_some'] at hrun ⊢
          obtain ⟨es', hes', rfl⟩ := hrun
          exact ⟨es', ih hes' hfg', rfl⟩

/-- C9 (determinism): two complete traversals of the same policy over the same
unmodified histogram, run independently (with arbitrary, possibly different,
fuel budgets), produce identical emission sequences — the same number of
emissions with all snapshot fields equal, emission by emission. -/
theorem run_deterministic (p : Policy) (k : ℚ) (h : HdrHistogram)
    (f₁ f₂ : Nat) (es₁ es₂ : List HdrIterationValue)
    (h₁ : emissions p k h f₁ = some es₁) (h₂ : emissions p k h f₂ = some es₂) :
    es₁ = es₂ := by
  simp only [emissions] at h₁ h₂
  rcases le_total f₁ f₂ with hle | hle
  · have h₁' := runAux_mono p k h h₁ hle
    rw [h₂] at h₁'
    exact (Option.some.inj h₁').symm
  · have h₂' := runAux_mono p k h h₂ hle
    rw [h₁] at h₂'
    exact Option.some.inj h₂'

/-- Witness for C9: the all-buckets traversal of a one-slot histogram
finishes immediately under either fuel budget, with equal emission lists. -/
theorem run_deterministic_witness :
    emissions .allValues 0 ⟨[1], fun i => i, 1⟩ 1 = some [] ∧
    emissions .allValues 0 ⟨[1], fun i => i, 1⟩ 3 = some [] ∧
    ([] : List HdrIterationValue) = [] := by
  refine ⟨rfl, rfl, ?_⟩
  exact run_deterministic .allValues 0 ⟨[1], fun i => i, 1⟩ 1 3 [] [] rfl rfl

/-! ## C4: cursor equality -/

/-- C4 counterexample: two active (non-exhausted) cursors — here even at
*different* positions — compare **equal**, because `operator==` compares only
the `end_` flags (`false == false` is `true`).  So equality does not return
`true` exactly when both cursors are exhausted. -/
theorem iterEq_active_counterexample :
    iterEq initState { initState with currentIndex := 7 } = true ∧
    initState.endFlag = false ∧
    ({ initState with currentIndex := 7 } : HdrIterState).endFlag = false := by
  exact ⟨rfl, rfl, rfl⟩

/-- C4 amended: the equality operator of `RecordedIterator` and
`PercentileIterator` returns `true` exactly when the two cursors' exhausted
flags *agree* — both exhausted or both active.  An active cursor therefore
never equals the past-the-end sentinel (which is the end-detection mechanism),
but two active cursors always compare equal, regardless of position. -/
theorem iterEq_iff_endFlag_eq (lhs rhs : HdrIterState) :
    iterEq lhs rhs = true ↔ lhs.endFlag = rhs.endFlag := by
  simp [iterEq]

/-! ## C7: the target-advance arithmetic -/

lemma advanceTargetSrc_spec (k t : ℝ) (hk : 0 < k) :
    (100 - t = 0 → advanceTargetSrc k t = t) ∧
    (0 < 100 - t → advanceTargetSrc k t = t + (100 - t) / (2 * k)) := by
  constructor
  · intro hgap
    simp [advanceTargetSrc, hgap]
  · intro hgap
    have hgap' : (100 : ℝ) - t ≠ 0 := ne_of_gt hgap
    simp only [advanceTargetSrc, if_neg hgap']
    have hlogb : Real.log (100 / (100 - t)) / Real.log 2
        = Real.logb 2 (100 / (100 - t)) := rfl
    have hx : (0 : ℝ) < 100 / (100 - t) := by positivity
    have hpow : (2 : ℝ) ^ (Real.logb 2 (100 / (100 - t)) + 1)
        = 100 / (100 - t) * 2 := by
      rw [Real.rpow_add (by norm_num : (0:ℝ) < 2), Real.rpow_one,
        Real.rpow_logb (by norm_num) (by norm_num) hx]
    rw [hlogb, hpow]
    have hk' : k ≠ 0 := ne_of_gt hk
    field_simp
    ring

/-- C7: `PercentileIterator::increment_iteration_level`'s arithmetic.  With a
positive tick count `k` and current target `t`: if the gap `100 - t` is zero
the target is left unchanged; if the gap is positive, the source expression
`t + 100 / (k * 2 ^ (log₂ (100 / gap) + 1))` equals `t + gap / (2 * k)`. -/
theorem advanceTargetSrc_eq (k t : ℝ) (hk : 0 < k) :
    (100 - t = 0 → advanceTargetSrc k t = t) ∧
    (0 < 100 - t → advanceTargetSrc k t = t + (100 - t) / (2 * k)) :=
  advanceTargetSrc_spec k t hk

/-- Witness for C7 at `k = 1`, `t = 0`: the gap is `100`, and the advanced
target is `0 + 100 / 2 = 50`. -/
theorem advanceTargetSrc_eq_witness :
    (0 : ℝ) < 1 ∧ (0 : ℝ) < 100 - 0 ∧
    advanceTargetSrc 1 0 = 0 + (100 - 0) / (2 * 1) := by
  refine ⟨by norm_num, by norm_num, ?_⟩
  exact (advanceTargetSrc_eq 1 0 (by norm_num)).2 (by norm_num)

/-! ## C10: advancing an exhausted cursor is a no-op -/

/-- C10: an advance request on an exhausted cursor (end flag set and the
continuation test answering `false`) emits nothing and returns the state
completely unchanged — current snapshot, bucket index, running cumulative
count, running weighted sum, and the previous-emission records all keep
their values (the continuation check re-sets the already-set end flag, which
is the identity here). -/
theorem advance_exhausted_noop (p : Policy) (k : ℚ) (h : HdrHistogram)
    (s : HdrIterState) (fuel : Nat)
    (hend : s.endFlag = true) (hnext : (hasNext p h s).1 = false) :
    advance p k h (fuel + 1) s = some (none, s) := by
  have hn := hasNext_false hnext
  rw [setEnd_eq_self hend] at hn
  simp [advance, loopBody, hn]

/-- Witness for C10: a cursor with the end flag set over an empty count
table; `has_next` answers `false` and advancing it returns the state as-is. -/
theorem advance_exhausted_noop_witness :
    ({ initState with endFlag := true } : HdrIterState).endFlag = true ∧
    (hasNext .allValues ⟨[], fun i => i, 1⟩
      { initState with endFlag := true }).1 = false ∧
    advance .allValues 0 ⟨[], fun i => i, 1⟩ 1 { initState with endFlag := true }
      = some (none, { initState with endFlag := true }) := by
  refine ⟨rfl, rfl, ?_⟩
  exact advance_exhausted_noop .allValues 0 ⟨[], fun i => i, 1⟩
    { initState with endFlag := true } 0 rfl rfl

/-! ## C6: the synthetic terminal percentile step -/

/-- C6: behaviour of `PercentileIterator::has_next` at the traversal boundary.
With `total_count = 0` the cursor starts exhausted (the very first
continuation test sets the end flag) and a complete traversal emits nothing.
With `total_count ≠ 0`, once the cumulative count has reached `total_count`
and the terminal step has not yet been taken, exactly one additional
continuation is forced, with the target percentile set to `100.0` and the
terminal-step flag raised; any later continuation test (terminal flag raised,
cumulative count still at `total_count`) answers `false` and sets the end
flag. -/
theorem percentile_terminal_step (h : HdrHistogram) (k : ℚ) :
    (h.totalCount = 0 →
      hasNext .percentile h initState = (false, { initState with endFlag := true }) ∧
      emissions .percentile k h 1 = some []) ∧
    (∀ s : HdrIterState, h.totalCount ≠ 0 → ¬ s.totalToCurrent < h.totalCount →
      s.reachedLast = false →
      hasNext .percentile h s
        = (true, { s with percentileToIterateTo := 100, reachedLast := true })) ∧
    (∀ s : HdrIterState, ¬ s.totalToCurrent < h.totalCount → s.reachedLast = true →
      hasNext .percentile h s = (false, { s with endFlag := true })) := by
  refine ⟨?_, ?_, ?_⟩
  · intro h0
    have hn : hasNext .percentile h initState
        = (false, { initState with endFlag := true }) := by
      simp [hasNext, h0, initState]
    refine ⟨hn, ?_⟩
    simp [emissions, runAux, loopBody, hn]
  · intro s hT hfull hlast
    simp [hasNext, hfull, hlast, hT]
  · intro s hfull hlast
    simp [hasNext, hfull, hlast]

/-- Witness for C6 over the one-slot histogram `[1]` (so `total_count = 1`):
a state whose cumulative count has reached `1` with the terminal flag clear
receives the forced 100% continuation; with the flag raised the next test
exhausts the cursor.  The zero-count clause is witnessed by the empty
histogram. -/
theorem percentile_terminal_step_witness :
    hasNext .percentile ⟨[1], fun i => i, 1⟩
        { initState with totalToCurrent := 1 }
      = (true, { initState with
                  totalToCurrent := 1
                  percentileToIterateTo := 100
                  reachedLast := true }) ∧
    hasNext .percentile ⟨[1], fun i => i, 1⟩
        { initState with totalToCurrent := 1, reachedLast := true }
      = (false, { initState with
                  totalToCurrent := 1
                  reachedLast := true
                  endFlag := true }) ∧
    emissions .percentile 1 ⟨[0, 0], fun i => i, 1⟩ 1 = some [] := by
  refine ⟨?_, ?_, ?_⟩
  · exact (percentile_terminal_step ⟨[1], fun i => i, 1⟩ 1).2.1
      { initState with totalToCurrent := 1 } (by decide) (by decide) rfl
  · exact (percentile_terminal_step ⟨[1], fun i => i, 1⟩ 1).2.2
      { initState with totalToCurrent := 1, reachedLast := true } (by decide) rfl
  · exact ((percentile_terminal_step ⟨[0, 0], fun i => i, 1⟩ 1).1 rfl).2

/-! ## Characterisation of single loop passes -/

lemma foldStep_fresh {h : HdrHistogram} {s : HdrIterState}
    (hf : s.freshSubBucket = true) :
    foldStep h s =
      { s with
        countAtThisValue := h.countAt s.currentIndex
        totalToCurrent := s.totalToCurrent + h.countAt s.currentIndex
        valueToIndex :=
          s.valueToIndex + h.countAt s.currentIndex * h.bucketVal s.currentIndex
        freshSubBucket := false } := by
  simp [foldStep, hf]

lemma foldStep_stale {h : HdrHistogram} {s : HdrIterState}
    (hf : s.freshSubBucket = false) :
    foldStep h s = { s with countAtThisValue := h.countAt s.currentIndex } := by
  simp [foldStep, hf]

lemma loopBody_stop {p : Policy} {k : ℚ} {h : HdrHistogram} {s : HdrIterState}
    (hn : (hasNext p h s).1 = false) :
    loopBody p k h s = (.stop, { s with endFlag := true }) := by
  have := hasNext_false hn
  simp [loopBody, this]

lemma loopBody_emit {p : Policy} {k : ℚ} {h : HdrHistogram} {s s1 : HdrIterState}
    (hn : hasNext p h s = (true, s1))
    (hr : reachedIterationLevel p h (foldStep h s1) = true) :
    loopBody p k h s =
      (.emit (mkSnapshot p h (foldStep h s1)
          (h.bucketVal (foldStep h s1).currentIndex)),
       incrementIterationLevel k p
         { foldStep h s1 with
             current := mkSnapshot p h (foldStep h s1)
               (h.bucketVal (foldStep h s1).currentIndex)
             prevValueIteratedTo := h.bucketVal (foldStep h s1).currentIndex
             totalToPrev := (foldStep h s1).totalToCurrent }) := by
  simp [loopBody, hn, hr]

lemma loopBody_next {p : Policy} {k : ℚ} {h : HdrHistogram} {s s1 : HdrIterState}
    (hn : hasNext p h s = (true, s1))
    (hr : reachedIterationLevel p h (foldStep h s1) = false) :
    loopBody p k h s = (.next, incrementSubBucket (foldStep h s1)) := by
  simp [loopBody, hn, hr]

lemma runAux_succ_stop {p : Policy} {k : ℚ} {h : HdrHistogram}
    {s s1 : HdrIterState} {f : Nat}
    (hlb : loopBody p k h s = (.stop, s1)) :
    runAux p k h (f + 1) s = some [] := by
  simp [runAux, hlb]

lemma runAux_succ_next {p : Policy} {k : ℚ} {h : HdrHistogram}
    {s s1 : HdrIterState} {f : Nat}
    (hlb : loopBody p k h s = (.next, s1)) :
    runAux p k h (f + 1) s = runAux p k h f s1 := by
  simp [runAux, hlb]

lemma runAux_succ_emit {p : Policy} {k : ℚ} {h : HdrHistogram}
    {s s1 : HdrIterState} {v : HdrIterationValue} {f : Nat}
    (hlb : loopBody p k h s = (.emit v, s1)) :
    runAux p k h (f + 1) s = (runAux p k h f s1).map (v :: ·) := by
  simp [runAux, hlb]

lemma hasNext_bounded_true {p : Policy} {h : HdrHistogram} {s : HdrIterState}
    (hp : p = Policy.allValues ∨ p = Policy.recorded)
    (hidx : s.currentIndex < h.countsLen - 1) :
    hasNext p h s = (true, s) := by
  rcases hp with rfl | rfl <;> simp [hasNext, hidx]

lemma hasNext_bounded_false {p : Policy} {h : HdrHistogram} {s : HdrIterState}
    (hp : p = Policy.allValues ∨ p = Policy.recorded)
    (hidx : ¬ s.currentIndex < h.countsLen - 1) :
    (hasNext p h s).1 = false := by
  rcases hp with rfl | rfl <;> simp [hasNext, hidx]

/-! ## Field projections of the loop-pass building blocks -/

@[simp] lemma foldStep_currentIndex (h : HdrHistogram) (s : HdrIterState) :
    (foldStep h s).currentIndex = s.currentIndex := by
  simp only [foldStep]
  split <;> rfl

@[simp] lemma foldStep_visitedIndex (h : HdrHistogram) (s : HdrIterState) :
    (foldStep h s).visitedIndex = s.visitedIndex := by
  simp only [foldStep]
  split <;> rfl

@[simp] lemma foldStep_freshSubBucket (h : HdrHistogram) (s : HdrIterState) :
    (foldStep h s).freshSubBucket = false := by
  simp only [foldStep]
  split <;> simp_all

@[simp] lemma foldStep_countAtThisValue (h : HdrHistogram) (s : HdrIterState) :
    (foldStep h s).countAtThisValue = h.countAt s.currentIndex := by
  simp only [foldStep]
  split <;> rfl

@[simp] lemma foldStep_totalToPrev (h : HdrHistogram) (s : HdrIterState) :
    (foldStep h s).totalToPrev = s.totalToPrev := by
  simp only [foldStep]
  split <;> rfl

@[simp] lemma foldStep_totalToCurrent (h : HdrHistogram) (s : HdrIterState) :
    (foldStep h s).totalToCurrent
      = s.totalToCurrent
        + (if s.freshSubBucket then h.countAt s.currentIndex else 0) := by
  simp only [foldStep]
  rcases hf : s.freshSubBucket <;> simp [hf]

@[simp] lemma foldStep_valueToIndex (h : HdrHistogram) (s : HdrIterState) :
    (foldStep h s).valueToIndex
      = s.valueToIndex
        + (if s.freshSubBucket then
            h.countAt s.currentIndex * h.bucketVal s.currentIndex else 0) := by
  simp only [foldStep]
  rcases hf : s.freshSubBucket <;> simp [hf]

@[simp] lemma foldStep_percentileToIterateTo (h : HdrHistogram) (s : HdrIterState) :
    (foldStep h s).percentileToIterateTo = s.percentileToIterateTo := by
  simp only [foldStep]
  split <;> rfl

@[simp] lemma foldStep_reachedLast (h : HdrHistogram) (s : HdrIterState) :
    (foldStep h s).reachedLast = s.reachedLast := by
  simp only [foldStep]
  split <;> rfl

@[simp] lemma foldStep_endFlag (h : HdrHistogram) (s : HdrIterState) :
    (foldStep h s).endFlag = s.endFlag := by
  simp only [foldStep]
  split <;> rfl

@[simp] lemma foldStep_prevValueIteratedTo (h : HdrHistogram) (s : HdrIterState) :
    (foldStep h s).prevValueIteratedTo = s.prevValueIteratedTo := by
  simp only [foldStep]
  split <;> rfl

/-! ## The all-buckets traversal: exactly `counts_len - 1` emissions (C3) -/

lemma allValues_run_length (k : ℚ) (h : HdrHistogram) :
    ∀ (f : Nat) (s : HdrIterState) (es : List HdrIterationValue),
      runAux .allValues k h f s = some es →
      s.visitedIndex < (s.currentIndex : Int) →
      es.length = (h.countsLen - 1) - s.currentIndex := by
  intro f
  induction f using Nat.strong_induction_on with
  | _ f IH =>
    intro s es hrun hvis
    match f, hrun with
    | 0, hrun => simp [runAux] at hrun
    | f + 1, hrun =>
      by_cases hidx : s.currentIndex < h.countsLen - 1
      · have hn := hasNext_bounded_true (p := .allValues) (h := h) (s := s)
          (Or.inl rfl) hidx
        have hr : reachedIterationLevel .allValues h (foldStep h s) = true := by
          simp only [reachedIterationLevel, foldStep_visitedIndex,
            foldStep_currentIndex, bne_iff_ne, ne_eq]
          omega
        rw [runAux_succ_emit (loopBody_emit (k := k) hn hr)] at hrun
        obtain ⟨es₁, hrun₁, hes⟩ := Option.map_eq_some'.mp hrun
        subst hes
        match f, hrun₁ with
        | 0, hrun₁ => simp [runAux] at hrun₁
        | f₁ + 1, hrun₁ =>
          set s5 := incrementIterationLevel k .allValues
            { foldStep h s with
                current := mkSnapshot .allValues h (foldStep h s)
                  (h.bucketVal (foldStep h s).currentIndex)
                prevValueIteratedTo := h.bucketVal (foldStep h s).currentIndex
                totalToPrev := (foldStep h s).totalToCurrent } with hs5
          have hs5idx : s5.currentIndex = s.currentIndex := by
            simp [hs5, incrementIterationLevel]
          have hs5vis : s5.visitedIndex = (s.currentIndex : Int) := by
            simp [hs5, incrementIterationLevel]
          have hn₂ : hasNext .allValues h s5 = (true, s5) :=
            hasNext_bounded_true (Or.inl rfl) (by rw [hs5idx]; exact hidx)
          have hr₂ : reachedIterationLevel .allValues h (foldStep h s5) = false := by
            simp only [reachedIterationLevel, foldStep_visitedIndex,
              foldStep_currentIndex, hs5vis, hs5idx, bne_self_eq_false]
          rw [runAux_succ_next (loopBody_next hn₂ hr₂)] at hrun₁
          have hlen := IH f₁ (by omega) _ es₁ hrun₁
            (by simp [incrementSubBucket, hs5vis, hs5idx])
          simp only [incrementSubBucket, foldStep_currentIndex, hs5idx] at hlen
          simp only [List.length_cons, hlen]
          omega
      · rw [runAux_succ_stop
          (loopBody_stop (k := k) (hasNext_bounded_false (Or.inl rfl) hidx))] at hrun
        obtain rfl : ([] : List HdrIterationValue) = es := Option.some.inj hrun
        simp only [List.length_nil]
        omega

lemma allValues_run_exists (k : ℚ) (h : HdrHistogram) :
    ∀ (n : Nat) (s : HdrIterState),
      s.visitedIndex < (s.currentIndex : Int) →
      (h.countsLen - 1) - s.currentIndex ≤ n →
      ∃ es, runAux .allValues k h (2 * n + 1) s = some es := by
  intro n
  induction n with
  | zero =>
      intro s hvis hle
      have hidx : ¬ s.currentIndex < h.countsLen - 1 := by omega
      exact ⟨[], runAux_succ_stop
        (loopBody_stop (k := k) (hasNext_bounded_false (Or.inl rfl) hidx))⟩
  | succ n IH =>
      intro s hvis hle
      by_cases hidx : s.currentIndex < h.countsLen - 1
      · have hn := hasNext_bounded_true (p := .allValues) (h := h) (s := s)
          (Or.inl rfl) hidx
        have hr : reachedIterationLevel .allValues h (foldStep h s) = true := by
          simp only [reachedIterationLevel, foldStep_visitedIndex,
            foldStep_currentIndex, bne_iff_ne, ne_eq]
          omega
        have hfuel : 2 * (n + 1) + 1 = (2 * n + 1) + 1 + 1 := by ring
        rw [hfuel, runAux_succ_emit (loopBody_emit (k := k) hn hr)]
        set s5 := incrementIterationLevel k .allValues
          { foldStep h s with
              current := mkSnapshot .allValues h (foldStep h s)
                (h.bucketVal (foldStep h s).currentIndex)
              prevValueIteratedTo := h.bucketVal (foldStep h s).currentIndex
              totalToPrev := (foldStep h s).totalToCurrent } with hs5
        have hs5idx : s5.currentIndex = s.currentIndex := by
          simp [hs5, incrementIterationLevel]
        have hs5vis : s5.visitedIndex = (s.currentIndex : Int) := by
          simp [hs5, incrementIterationLevel]
        have hn₂ : hasNext .allValues h s5 = (true, s5) :=
          hasNext_bounded_true (Or.inl rfl) (by rw [hs5idx]; exact hidx)
        have hr₂ : reachedIterationLevel .allValues h (foldStep h s5) = false := by
          simp only [reachedIterationLevel, foldStep_visitedIndex,
            foldStep_currentIndex, hs5vis, hs5idx, bne_self_eq_false]
        rw [runAux_succ_next (loopBody_next hn₂ hr₂)]
        obtain ⟨es₁, hes₁⟩ := IH (incrementSubBucket (foldStep h s5))
          (by simp [incrementSubBucket, hs5vis, hs5idx])
          (by simp [incrementSubBucket, hs5idx]; omega)
        exact ⟨_ :: es₁, by rw [hes₁]; rfl⟩
      · refine ⟨[], ?_⟩
        have hfuel : 2 * (n + 1) + 1 = (2 * (n + 1)) + 1 := rfl
        exact runAux_succ_stop
          (loopBody_stop (k := k) (hasNext_bounded_false (Or.inl rfl) hidx))

/-- C3: a complete traversal of an `AllValuesIterator` (the all-buckets
cursor) produces exactly `counts_len - 1` emissions, regardless of how many
values were recorded — including none.  (The indices visited are
`0 .. counts_len - 2`: the traversal bound `current_index_ < counts_len - 1`
of `AllValuesIterator::has_next` leaves the final slot outside the walk, so
the `counts_len - 1` emissions are one per index strictly below
`counts_len - 1`.) -/
theorem allBuckets_emission_count (h : HdrHistogram) (k : ℚ) :
    ∃ es, emissions .allValues k h (2 * h.countsLen + 1) = some es ∧
      es.length = h.countsLen - 1 := by
  obtain ⟨es, hes⟩ := allValues_run_exists k h h.countsLen initState
    (by norm_num [initState]) (by omega)
  refine ⟨es, hes, ?_⟩
  have hlen := allValues_run_length k h _ _ _ hes (by norm_num [initState])
  simpa [initState] using hlen

/-! ## The recorded-buckets traversal (C2, C5) -/

/-- The number of nonzero-count slots with index in `[a, counts_len - 1)` —
the slots at or above `a` that a `RecordedIterator` positioned at index `a`
can still emit (its traversal bound excludes the final slot). -/
def nzFrom (h : HdrHistogram) (a : Nat) : Nat :=
  ((h.counts.take (h.countsLen - 1)).drop a).countP (fun c => c != 0)

lemma nzFrom_stop {h : HdrHistogram} {a : Nat} (ha : h.countsLen - 1 ≤ a) :
    nzFrom h a = 0 := by
  have hlen : (h.counts.take (h.countsLen - 1)).length ≤ a := by
    simp only [List.length_take, HdrHistogram.countsLen] at *
    omega
  simp [nzFrom, List.drop_eq_nil_of_le hlen]

lemma nzFrom_step {h : HdrHistogram} {a : Nat} (ha : a < h.countsLen - 1) :
    nzFrom h a
      = nzFrom h (a + 1) + (if h.countAt a != 0 then 1 else 0) := by
  have hlen : a < (h.counts.take (h.countsLen - 1)).length := by
    simp only [List.length_take, HdrHistogram.countsLen] at *
    omega
  have halen : a < h.counts.length := by
    simp only [HdrHistogram.countsLen] at ha
    omega
  have hgd : (h.counts.take (h.countsLen - 1))[a] = h.countAt a := by
    rw [List.getElem_take h.counts]
    simp [HdrHistogram.countAt, List.getD_eq_getElem?_getD,
      List.getElem?_eq_getElem halen]
  rw [nzFrom, List.drop_eq_getElem_cons hlen, List.countP_cons, hgd]
  rfl

lemma pfx_eq_of_nzFrom_zero (h : HdrHistogram) :
    ∀ (m a : Nat), a ≤ h.countsLen - 1 → (h.countsLen - 1) - a = m →
      nzFrom h a = 0 → pfx h (h.countsLen - 1) = pfx h a := by
  intro m
  induction m with
  | zero =>
      intro a hle hm _
      have : a = h.countsLen - 1 := by omega
      rw [this]
  | succ m IH =>
      intro a hle hm hz
      have ha : a < h.countsLen - 1 := by omega
      rw [nzFrom_step ha] at hz
      have hz1 : nzFrom h (a + 1) = 0 := by omega
      have hc : h.countAt a = 0 := by
        by_contra hc
        simp [hc] at hz
      have := IH (a + 1) (by omega) (by omega) hz1
      rw [this, pfx_succ, hc]
      omega

lemma recorded_run_spec (k : ℚ) (h : HdrHistogram) :
    ∀ (f : Nat) (s : HdrIterState) (es : List HdrIterationValue),
      runAux .recorded k h f s = some es →
      s.freshSubBucket = true →
      s.totalToCurrent = pfx h s.currentIndex →
      s.visitedIndex < (s.currentIndex : Int) →
      es.length = nzFrom h s.currentIndex ∧
      (es = [] ∨ (es.map (·.countAddedInThisIterStep)).sum
          = (pfx h (h.countsLen - 1) : ℤ) - (s.totalToPrev : ℤ)) := by
  intro f
  induction f using Nat.strong_induction_on with
  | _ f IH =>
    intro s es hrun hfresh htot hvis
    match f, hrun with
    | 0, hrun => simp [runAux] at hrun
    | f + 1, hrun =>
      by_cases hidx : s.currentIndex < h.countsLen - 1
      · have hn := hasNext_bounded_true (p := .recorded) (h := h) (s := s)
          (Or.inr rfl) hidx
        by_cases hc : h.countAt s.currentIndex = 0
        · have hr : reachedIterationLevel .recorded h (foldStep h s) = false := by
            simp [reachedIterationLevel, hc]
          rw [runAux_succ_next (loopBody_next hn hr)] at hrun
          have hIH := IH f (by omega) _ es hrun
            (by simp [incrementSubBucket])
            (by simp [incrementSubBucket, hfresh, hc, pfx_succ, htot])
            (by simp [incrementSubBucket]; omega)
          refine ⟨?_, ?_⟩
          · rw [hIH.1, nzFrom_step hidx]
            simp [incrementSubBucket, hc]
          · rcases hIH.2 with hnil | hsum
            · exact Or.inl hnil
            · refine Or.inr ?_
              rw [hsum]
              simp [incrementSubBucket]
        · have hr : reachedIterationLevel .recorded h (foldStep h s) = true := by
            simp only [reachedIterationLevel, foldStep_currentIndex,
              foldStep_visitedIndex, Bool.and_eq_true, bne_iff_ne, ne_eq]
            constructor
            · exact hc
            · omega
          rw [runAux_succ_emit (loopBody_emit (k := k) hn hr)] at hrun
          obtain ⟨es₁, hrun₁, hes⟩ := Option.map_eq_some'.mp hrun
          subst hes
          match f, hrun₁ with
          | 0, hrun₁ => simp [runAux] at hrun₁
          | f₁ + 1, hrun₁ =>
            set s5 := incrementIterationLevel k .recorded
              { foldStep h s with
                  current := mkSnapshot .recorded h (foldStep h s)
                    (h.bucketVal (foldStep h s).currentIndex)
                  prevValueIteratedTo := h.bucketVal (foldStep h s).currentIndex
                  totalToPrev := (foldStep h s).totalToCurrent } with hs5
            have hs5idx : s5.currentIndex = s.currentIndex := by
              simp [hs5, incrementIterationLevel]
            have hs5vis : s5.visitedIndex = (s.currentIndex : Int) := by
              simp [hs5, incrementIterationLevel]
            have hs5fresh : s5.freshSubBucket = false := by
              simp [hs5, incrementIterationLevel]
            have hs5tot : s5.totalToCurrent = pfx h (s.currentIndex + 1) := by
              simp [hs5, incrementIterationLevel, hfresh, pfx_succ, htot]
            have hs5prev : s5.totalToPrev = pfx h (s.currentIndex + 1) := by
              simp [hs5, incrementIterationLevel, hfresh, pfx_succ, htot]
            have hn₂ : hasNext .recorded h s5 = (true, s5) :=
              hasNext_bounded_true (Or.inr rfl) (by rw [hs5idx]; exact hidx)
            have hr₂ : reachedIterationLevel .recorded h (foldStep h s5) = false := by
              simp only [reachedIterationLevel, foldStep_visitedIndex,
                foldStep_currentIndex, hs5vis, hs5idx, bne_self_eq_false,
                Bool.and_false]
            rw [runAux_succ_next (loopBody_next hn₂ hr₂)] at hrun₁
            have hIH := IH f₁ (by omega) _ es₁ hrun₁
              (by simp [incrementSubBucket])
              (by simp [incrementSubBucket, hs5fresh, hs5idx, hs5tot])
              (by simp [incrementSubBucket, hs5vis, hs5idx])
            simp only [incrementSubBucket, foldStep_currentIndex, hs5idx,
              foldStep_totalToPrev, hs5prev] at hIH
            have hca : (mkSnapshot .recorded h (foldStep h s)
                (h.bucketVal (foldStep h s).currentIndex)).countAddedInThisIterStep
                = (pfx h (s.currentIndex + 1) : ℤ) - (s.totalToPrev : ℤ) := by
              simp [mkSnapshot, hfresh, pfx_succ, htot]
            refine ⟨?_, Or.inr ?_⟩
            · rw [List.length_cons, hIH.1, nzFrom_step hidx]
              simp [hc]
            · rw [List.map_cons, List.sum_cons, hca]
              rcases hIH.2 with rfl | hsum
              · have hz : nzFrom h (s.currentIndex + 1) = 0 := by
                  simpa using hIH.1.symm
                have := pfx_eq_of_nzFrom_zero h ((h.countsLen - 1) - (s.currentIndex + 1))
                  (s.currentIndex + 1) (by omega) rfl hz
                rw [this]
                simp
              · rw [hsum]
                omega
      · rw [runAux_succ_stop
          (loopBody_stop (k := k) (hasNext_bounded_false (Or.inr rfl) hidx))] at hrun
        obtain rfl : ([] : List HdrIterationValue) = es := Option.some.inj hrun
        refine ⟨?_, Or.inl rfl⟩
        rw [nzFrom_stop (by omega)]
        rfl

lemma recorded_run_exists (k : ℚ) (h : HdrHistogram) :
    ∀ (n : Nat) (s : HdrIterState),
      s.freshSubBucket = true →
      s.visitedIndex < (s.currentIndex : Int) →
      (h.countsLen - 1) - s.currentIndex ≤ n →
      ∃ es, runAux .recorded k h (2 * n + 1) s = some es := by
  intro n
  induction n with
  | zero =>
      intro s _ hvis hle
      have hidx : ¬ s.currentIndex < h.countsLen - 1 := by omega
      exact ⟨[], runAux_succ_stop
        (loopBody_stop (k := k) (hasNext_bounded_false (Or.inr rfl) hidx))⟩
  | succ n IH =>
      intro s hfresh hvis hle
      by_cases hidx : s.currentIndex < h.countsLen - 1
      · have hn := hasNext_bounded_true (p := .recorded) (h := h) (s := s)
          (Or.inr rfl) hidx
        by_cases hc : h.countAt s.currentIndex = 0
        · have hr : reachedIterationLevel .recorded h (foldStep h s) = false := by
            simp [reachedIterationLevel, hc]
          have hfuel : 2 * (n + 1) + 1 = (2 * n + 2) + 1 := by ring
          rw [hfuel, runAux_succ_next (loopBody_next hn hr)]
          obtain ⟨es, hes⟩ := IH (incrementSubBucket (foldStep h s))
            (by simp [incrementSubBucket])
            (by simp [incrementSubBucket]; omega)
            (by simp [incrementSubBucket]; omega)
          exact ⟨es, runAux_mono .recorded k h hes (by omega)⟩
        · have hr : reachedIterationLevel .recorded h (foldStep h s) = true := by
            simp only [reachedIterationLevel, foldStep_currentIndex,
              foldStep_visitedIndex, Bool.and_eq_true, bne_iff_ne, ne_eq]
            exact ⟨hc, by omega⟩
          have hfuel : 2 * (n + 1) + 1 = ((2 * n + 1) + 1) + 1 := by ring
          rw [hfuel, runAux_succ_emit (loopBody_emit (k := k) hn hr)]
          set s5 := incrementIterationLevel k .recorded
            { foldStep h s with
                current := mkSnapshot .recorded h (foldStep h s)
                  (h.bucketVal (foldStep h s).currentIndex)
                prevValueIteratedTo := h.bucketVal (foldStep h s).currentIndex
                totalToPrev := (foldStep h s).totalToCurrent } with hs5
          have hs5idx : s5.currentIndex = s.currentIndex := by
            simp [hs5, incrementIterationLevel]
          have hs5vis : s5.visitedIndex = (s.currentIndex : Int) := by
            simp [hs5, incrementIterationLevel]
          have hn₂ : hasNext .recorded h s5 = (true, s5) :=
            hasNext_bounded_true (Or.inr rfl) (by rw [hs5idx]; exact hidx)
          have hr₂ : reachedIterationLevel .recorded h (foldStep h s5) = false := by
            simp only [reachedIterationLevel, foldStep_visitedIndex,
              foldStep_currentIndex, hs5vis, hs5idx, bne_self_eq_false,
              Bool.and_false]
          rw [runAux_succ_next (loopBody_next hn₂ hr₂)]
          obtain ⟨es₁, hes₁⟩ := IH (incrementSubBucket (foldStep h s5))
            (by simp [incrementSubBucket])
            (by simp [incrementSubBucket, hs5vis, hs5idx])
            (by simp [incrementSubBucket, hs5idx]; omega)
          exact ⟨_ :: es₁, by rw [hes₁]; rfl⟩
      · exact ⟨[], runAux_succ_stop
          (loopBody_stop (k := k) (hasNext_bounded_false (Or.inr rfl) hidx))⟩

/-- C2 counterexample: a histogram whose single recorded value sits in the
top slot (index `counts_len - 1 = 1`).  The complete `RecordedIterator`
traversal emits nothing — its bound `current_index_ < counts_len - 1` never
reaches the top slot — so the "count added in this step" total is `0`, not
the number of recorded values `N = 1`. -/
theorem recorded_top_slot_counterexample :
    emissions .recorded 1 ⟨[0, 1], fun i => i, 1⟩ 5 = some [] ∧
    HdrHistogram.totalCount ⟨[0, 1], fun i => i, 1⟩ = 1 ∧
    (([] : List HdrIterationValue).map
        (·.countAddedInThisIterStep)).sum ≠ (1 : ℤ) := by
  refine ⟨rfl, rfl, by decide⟩

/-- C2 amended: over a complete `RecordedIterator` traversal, the sum of the
snapshot field "count added in this step" equals the number of values
recorded at bucket indices `0 .. counts_len - 2` (`pfx h (countsLen - 1)`):
the cursor's traversal bound excludes the final slot, so this equals `N`
exactly when the top slot holds no values.  Likewise the number of emissions
equals the number of *nonzero* slots strictly below `counts_len - 1`: one
emission per such bucket, zero-count buckets skipped. -/
theorem recorded_sum_counts (h : HdrHistogram) (k : ℚ) :
    ∃ es, emissions .recorded k h (2 * h.countsLen + 1) = some es ∧
      (es.map (·.countAddedInThisIterStep)).sum
        = (pfx h (h.countsLen - 1) : ℤ) ∧
      es.length = nzFrom h 0 := by
  obtain ⟨es, hes⟩ := recorded_run_exists k h h.countsLen initState rfl
    (by norm_num [initState]) (by omega)
  have hspec := recorded_run_spec k h _ _ _ hes rfl
    (by simp [initState, pfx]) (by norm_num [initState])
  simp only [initState] at hspec
  refine ⟨es, hes, ?_, hspec.1⟩
  rcases hspec.2 with rfl | hsum
  · have hz : nzFrom h 0 = 0 := by simpa using hspec.1.symm
    have := pfx_eq_of_nzFrom_zero h (h.countsLen - 1) 0 (by omega) (by omega) hz
    rw [this]
    simp [pfx]
  · rw [hsum]
    simp

/-- C5 counterexample: the all-buckets cursor is *not* special-cased for a
zero-population histogram: over `counts = [0, 0]` (`total_count = 0`) the
complete traversal still produces an emission, and `HdrIterationValue::set`
(Iterator.cpp:42) computes `percentile = 100.0 * 0 / 0` for it — a division
by zero (IEEE `NaN` in the C++ source, junk `0` in this exact model). -/
theorem allValues_zero_population_divides :
    HdrHistogram.totalCount ⟨[0, 0], fun i => i, 1⟩ = 0 ∧
    (emissions .allValues 1 ⟨[0, 0], fun i => i, 1⟩ 5).map List.length
      = some 1 := by
  exact ⟨rfl, rfl⟩

/-- C5 amended: the two cursor policies that *are* special-cased — the
recorded-buckets cursor (whose emission test requires a nonzero count) and
the percentile cursor (whose continuation contract suppresses both the loop
test and the synthetic terminal step at zero population) — emit nothing over
a histogram with `total_count = 0`, so neither ever computes a percentile
with a zero divisor; the all-buckets cursor, by contrast, does emit (its
`counts_len - 1` emissions each evaluate `100.0 * cumulative / 0`). -/
theorem zero_population_no_division (h : HdrHistogram) (k : ℚ)
    (h0 : h.totalCount = 0) :
    emissions .recorded k h (2 * h.countsLen + 1) = some [] ∧
    emissions .percentile k h 1 = some [] := by
  constructor
  · obtain ⟨es, hes⟩ := recorded_run_exists k h h.countsLen initState rfl
      (by norm_num [initState]) (by omega)
    have hspec := recorded_run_spec k h _ _ _ hes rfl
      (by simp [initState, pfx]) (by norm_num [initState])
    have hall : ∀ c ∈ h.counts, c = 0 :=
      List.sum_eq_zero_iff.mp h0
    have hz : nzFrom h 0 = 0 := by
      rw [nzFrom]
      rw [List.countP_eq_zero]
      intro a ha
      have : a ∈ h.counts :=
        List.mem_of_mem_take (List.mem_of_mem_drop ha)
      simp [hall a this]
    have hlen : es.length = 0 := by
      rw [hspec.1]
      simpa [initState] using hz
    obtain rfl : es = [] := List.length_eq_zero.mp hlen
    exact hes
  · have hn1 : (hasNext .percentile h initState).1 = false := by
      simp [hasNext, h0, initState]
    exact runAux_succ_stop (loopBody_stop hn1)

/-- Witness for C5's amended theorem at the concrete zero-population
histogram `[0, 0]`. -/
theorem zero_population_no_division_witness :
    HdrHistogram.totalCount ⟨[0, 0], fun i => i, 1⟩ = 0 ∧
    emissions .recorded 1 ⟨[0, 0], fun i => i, 1⟩ 5 = some [] ∧
    emissions .percentile 1 ⟨[0, 0], fun i => i, 1⟩ 1 = some [] := by
  refine ⟨rfl, ?_, ?_⟩
  · exact (zero_population_no_division ⟨[0, 0], fun i => i, 1⟩ 1 rfl).1
  · exact (zero_population_no_division ⟨[0, 0], fun i => i, 1⟩ 1 rfl).2

/-! ## C8: each bucket is folded into the running totals exactly once -/

@[simp] lemma hasNext_snd_currentIndex (p : Policy) (h : HdrHistogram)
    (s : HdrIterState) : ((hasNext p h s).2).currentIndex = s.currentIndex := by
  cases p <;> simp only [hasNext] <;> split <;> first | rfl | (split <;> rfl)

@[simp] lemma hasNext_snd_totalToCurrent (p : Policy) (h : HdrHistogram)
    (s : HdrIterState) : ((hasNext p h s).2).totalToCurrent = s.totalToCurrent := by
  cases p <;> simp only [hasNext] <;> split <;> first | rfl | (split <;> rfl)

@[simp] lemma hasNext_snd_freshSubBucket (p : Policy) (h : HdrHistogram)
    (s : HdrIterState) : ((hasNext p h s).2).freshSubBucket = s.freshSubBucket := by
  cases p <;> simp only [hasNext] <;> split <;> first | rfl | (split <;> rfl)

@[simp] lemma hasNext_snd_valueToIndex (p : Policy) (h : HdrHistogram)
    (s : HdrIterState) : ((hasNext p h s).2).valueToIndex = s.valueToIndex := by
  cases p <;> simp only [hasNext] <;> split <;> first | rfl | (split <;> rfl)

@[simp] lemma incrementIterationLevel_currentIndex (k : ℚ) (p : Policy)
    (s : HdrIterState) :
    (incrementIterationLevel k p s).currentIndex = s.currentIndex := by
  cases p <;> simp [incrementIterationLevel]

@[simp] lemma incrementIterationLevel_totalToCurrent (k : ℚ) (p : Policy)
    (s : HdrIterState) :
    (incrementIterationLevel k p s).totalToCurrent = s.totalToCurrent := by
  cases p <;> simp [incrementIterationLevel]

@[simp] lemma incrementIterationLevel_freshSubBucket (k : ℚ) (p : Policy)
    (s : HdrIterState) :
    (incrementIterationLevel k p s).freshSubBucket = s.freshSubBucket := by
  cases p <;> simp [incrementIterationLevel]

@[simp] lemma incrementIterationLevel_valueToIndex (k : ℚ) (p : Policy)
    (s : HdrIterState) :
    (incrementIterationLevel k p s).valueToIndex = s.valueToIndex := by
  cases p <;> simp [incrementIterationLevel]

/-- The states a cursor can be in: the freshly-constructed state and
everything obtainable from it by passes of the stepping loop (each
`operator++` call performs one or more such passes, so this covers every
observable state and every mid-loop state of every traversal). -/
inductive Reach (p : Policy) (k : ℚ) (h : HdrHistogram) : HdrIterState → Prop
  | init : Reach p k h initState
  | step {s : HdrIterState} : Reach p k h s → Reach p k h (loopBody p k h s).2

/-- C8: in every reachable cursor state of every policy, each bucket's count
has been folded into the running totals exactly once per visited index: when
the fresh flag is clear, the running cumulative count equals the sum of the
slot counts at indices `0 .. current`, and the running weighted sum equals
`Σ_{i ≤ current} count(i) * bucketVal(i)`; when the flag is still set the
totals cover exactly the indices strictly below `current`. -/
theorem fold_once_invariant (p : Policy) (k : ℚ) (h : HdrHistogram)
    (s : HdrIterState) (hs : Reach p k h s) :
    (s.freshSubBucket = true →
      s.totalToCurrent = pfx h s.currentIndex ∧
      s.valueToIndex = wpfx h s.currentIndex) ∧
    (s.freshSubBucket = false →
      s.totalToCurrent = pfx h (s.currentIndex + 1) ∧
      s.valueToIndex = wpfx h (s.currentIndex + 1)) := by
  induction hs with
  | init =>
      constructor
      · intro _
        simp [initState, pfx, wpfx]
      · intro hfresh
        simp [initState] at hfresh
  | @step t hr IH =>
      have hfs : (foldStep h (hasNext p h t).2).totalToCurrent
            = pfx h (t.currentIndex + 1) ∧
          (foldStep h (hasNext p h t).2).valueToIndex
            = wpfx h (t.currentIndex + 1) := by
        rcases hf : t.freshSubBucket
        · have hIH := IH.2 hf
          simp [hf, hIH.1, hIH.2]
        · have hIH := IH.1 hf
          simp [hf, hIH.1, hIH.2, pfx_succ, wpfx_succ]
      by_cases hn : (hasNext p h t).1 = true
      · simp only [loopBody, if_pos hn]
        by_cases hrl :
            reachedIterationLevel p h (foldStep h (hasNext p h t).2) = true
        · simp only [if_pos hrl]
          constructor
          · intro hfresh
            simp at hfresh
          · intro _
            constructor
            · simpa using hfs.1
            · simpa using hfs.2
        · simp only [if_neg hrl]
          constructor
          · intro _
            constructor
            · simpa [incrementSubBucket] using hfs.1
            · simpa [incrementSubBucket] using hfs.2
          · intro hfresh
            simp [incrementSubBucket] at hfresh
      · simp only [loopBody, if_neg hn]
        have hnf : (hasNext p h t).1 = false := by simpa using hn
        rw [hasNext_false hnf]
        constructor
        · intro hfresh
          exact IH.1 (by simpa using hfresh)
        · intro hfresh
          exact IH.2 (by simpa using hfresh)

/-- Witness for C8: after one loop pass of the all-buckets cursor over
`counts = [2, 3]` the fresh flag is clear and the running totals cover
exactly indices `0 .. current` (`2 = pfx 1`, `2 * bucketVal 0 = wpfx 1`). -/
theorem fold_once_invariant_witness :
    ((loopBody .allValues 1 ⟨[2, 3], fun i => i + 1, 1⟩ initState).2).freshSubBucket
      = false ∧
    ((loopBody .allValues 1 ⟨[2, 3], fun i => i + 1, 1⟩ initState).2).totalToCurrent
      = pfx ⟨[2, 3], fun i => i + 1, 1⟩
          (((loopBody .allValues 1 ⟨[2, 3], fun i => i + 1, 1⟩
              initState).2).currentIndex + 1) ∧
    ((loopBody .allValues 1 ⟨[2, 3], fun i => i + 1, 1⟩ initState).2).valueToIndex
      = wpfx ⟨[2, 3], fun i => i + 1, 1⟩
          (((loopBody .allValues 1 ⟨[2, 3], fun i => i + 1, 1⟩
              initState).2).currentIndex + 1) := by
  have hinv := (fold_once_invariant .allValues 1 ⟨[2, 3], fun i => i + 1, 1⟩ _
    (Reach.step Reach.init)).2 (by decide)
  exact ⟨by decide, hinv.1, hinv.2⟩

/-! ## C1: the percentile target sequence -/

/-- The sequence of target percentiles across a list of emissions. -/
def targets (es : List HdrIterationValue) : List ℚ :=
  es.map (·.percentileLevelIteratedTo)

lemma advanceTarget_lt {k t : ℚ} (hk : 1 < 2 * k) (ht : t < 100) :
    t < advanceTarget k t ∧ advanceTarget k t < 100 := by
  have hgap : (0 : ℚ) < 100 - t := by linarith
  have h2k : (0 : ℚ) < 2 * k := by linarith
  rw [advanceTarget, if_neg (by linarith)]
  constructor
  · have := div_pos hgap h2k
    linarith
  · have := div_lt_self hgap hk
    linarith

lemma advanceTarget_at_100 (k : ℚ) : advanceTarget k 100 = 100 := by
  simp [advanceTarget]

@[simp] lemma incrementIterationLevel_reachedLast (k : ℚ) (p : Policy)
    (s : HdrIterState) :
    (incrementIterationLevel k p s).reachedLast = s.reachedLast := by
  cases p <;> simp [incrementIterationLevel]

lemma incrementIterationLevel_pct_target (k : ℚ) (s : HdrIterState) :
    (incrementIterationLevel k .percentile s).percentileToIterateTo
      = advanceTarget k s.percentileToIterateTo := rfl

lemma hasNext_pct_base {h : HdrHistogram} {s : HdrIterState}
    (hb : s.totalToCurrent < h.totalCount) :
    hasNext .percentile h s = (true, s) := by
  simp [hasNext, hb]

lemma hasNext_pct_synth {h : HdrHistogram} {s : HdrIterState}
    (hb : ¬ s.totalToCurrent < h.totalCount)
    (hrl : s.reachedLast = false) (hT : h.totalCount ≠ 0) :
    hasNext .percentile h s
      = (true, { s with percentileToIterateTo := 100, reachedLast := true }) := by
  simp [hasNext, hb, hrl, hT]

lemma hasNext_pct_end {h : HdrHistogram} {s : HdrIterState}
    (hb : ¬ s.totalToCurrent < h.totalCount)
    (hdone : s.reachedLast = true ∨ h.totalCount = 0) :
    hasNext .percentile h s = (false, { s with endFlag := true }) := by
  rcases hdone with hd | hd <;> simp [hasNext, hb, hd]

lemma pct_full {h : HdrHistogram} (hT : h.totalCount ≠ 0) :
    100 * (h.totalCount : ℚ) / (h.totalCount : ℚ) = 100 := by
  have : (h.totalCount : ℚ) ≠ 0 := Nat.cast_ne_zero.mpr hT
  field_simp

/-- After the synthetic 100% emission the cursor is exhausted: any further
run of the loop stops at once and emits nothing more. -/
lemma pct_run_done (k : ℚ) (h : HdrHistogram) :
    ∀ (f : Nat) (s : HdrIterState) (es : List HdrIterationValue),
      runAux .percentile k h f s = some es →
      s.reachedLast = true → ¬ s.totalToCurrent < h.totalCount →
      es = [] := by
  intro f s es hrun hrl hb
  match f, hrun with
  | 0, hrun => simp [runAux] at hrun
  | f + 1, hrun =>
      rw [runAux_succ_stop (loopBody_stop
        (by rw [hasNext_pct_end hb (Or.inl hrl)]))] at hrun
      exact (Option.some.inj hrun).symm

/-- The phase-1 invariant of a percentile traversal (terminal step not yet
taken): the target is still strictly below 100, the running total is the
prefix sum determined by the index and fresh flag, and whenever the running
total has already reached a nonzero `total_count` the cursor is parked on
the bucket whose fold completed the total (fresh flag clear, nonzero count). -/
def PctInv (h : HdrHistogram) (s : HdrIterState) : Prop :=
  s.reachedLast = false ∧
  s.percentileToIterateTo < 100 ∧
  s.totalToCurrent
    = pfx h s.currentIndex
      + (if s.freshSubBucket then 0 else h.countAt s.currentIndex) ∧
  (s.totalToCurrent = h.totalCount → h.totalCount ≠ 0 →
    s.freshSubBucket = false ∧ h.countAt s.currentIndex ≠ 0)

lemma PctInv.total_le {h : HdrHistogram} {s : HdrIterState}
    (hinv : PctInv h s) : s.totalToCurrent ≤ h.totalCount := by
  rcases hinv with ⟨-, -, hrepr, -⟩
  rcases hf : s.freshSubBucket
  · rw [hf] at hrepr
    simp at hrepr
    have h1 := pfx_le_totalCount h (s.currentIndex + 1)
    rw [pfx_succ] at h1
    omega
  · rw [hf] at hrepr
    simp at hrepr
    have h1 := pfx_le_totalCount h s.currentIndex
    omega

lemma PctInv.initState (h : HdrHistogram) : PctInv h Toolbox.Hdr.initState := by
  refine ⟨rfl, by norm_num [Toolbox.Hdr.initState], ?_, ?_⟩
  · simp [Toolbox.Hdr.initState, pfx]
  · intro h1 h2
    exfalso
    simp only [Toolbox.Hdr.initState] at h1
    exact h2 h1.symm

lemma pct_run_main (k : ℚ) (h : HdrHistogram) (hk : 1 < 2 * k) :
    ∀ (f : Nat) (s : HdrIterState) (es : List HdrIterationValue),
      runAux .percentile k h f s = some es →
      PctInv h s →
      (targets es).Chain' (· < ·) ∧
      (∀ t ∈ (targets es).head?, s.percentileToIterateTo ≤ t) ∧
      (∀ t ∈ targets es, t ≤ 100) ∧
      (h.totalCount = 0 → es = []) ∧
      (h.totalCount ≠ 0 → es ≠ [] ∧ (targets es).getLast? = some 100) := by
  intro f
  induction f using Nat.strong_induction_on with
  | _ f IH =>
    intro s es hrun hinv
    obtain ⟨hrl, ht100, hrepr, hpark⟩ := hinv
    match f, hrun with
    | 0, hrun => simp [runAux] at hrun
    | f + 1, hrun =>
      by_cases hb : s.totalToCurrent < h.totalCount
      · have hT : h.totalCount ≠ 0 := by omega
        have hn := hasNext_pct_base hb
        have hs3tot : (foldStep h s).totalToCurrent
            = pfx h (s.currentIndex + 1) := by
          rcases hf : s.freshSubBucket
          · rw [hf] at hrepr
            simp at hrepr
            simp [hf, hrepr, pfx_succ]
          · rw [hf] at hrepr
            simp at hrepr
            simp [hf, hrepr, pfx_succ]
        rcases hrlvl : reachedIterationLevel .percentile h (foldStep h s)
        · -- no emission this pass: step to the next sub-bucket
          rw [runAux_succ_next (loopBody_next hn hrlvl)] at hrun
          have hnotfull : (foldStep h s).totalToCurrent ≠ h.totalCount := by
            intro htotT
            have hcnz : h.countAt s.currentIndex ≠ 0 := by
              intro hc0
              have hstot : s.totalToCurrent = h.totalCount := by
                rw [foldStep_totalToCurrent, hc0] at htotT
                simpa using htotT
              exact (hpark hstot hT).2 hc0
            have hzz : reachedIterationLevel .percentile h (foldStep h s)
                = true := by
              simp only [reachedIterationLevel, foldStep_countAtThisValue,
                foldStep_percentileToIterateTo, Bool.and_eq_true, bne_iff_ne,
                ne_eq, decide_eq_true_eq]
              refine ⟨hcnz, ?_⟩
              rw [htotT, pct_full hT]
              linarith
            rw [hzz] at hrlvl
            cases hrlvl
          have hinv6 : PctInv h (incrementSubBucket (foldStep h s)) := by
            refine ⟨by simp [incrementSubBucket, hrl], ?_, ?_, ?_⟩
            · simpa [incrementSubBucket] using ht100
            · simpa [incrementSubBucket] using hs3tot
            · intro htotT _
              exfalso
              apply hnotfull
              simpa [incrementSubBucket] using htotT
          have hIH := IH f (by omega) _ es hrun hinv6
          refine ⟨hIH.1, ?_, hIH.2.2.1, hIH.2.2.2.1, hIH.2.2.2.2⟩
          intro t htmem
          have := hIH.2.1 t htmem
          simpa [incrementSubBucket] using this
        · -- regular emission at the current target
          rw [runAux_succ_emit (loopBody_emit hn hrlvl)] at hrun
          obtain ⟨es₁, hrun₁, hes⟩ := Option.map_eq_some'.mp hrun
          subst hes
          have hreach := hrlvl
          simp only [reachedIterationLevel, foldStep_countAtThisValue,
            foldStep_percentileToIterateTo, Bool.and_eq_true, bne_iff_ne,
            ne_eq, decide_eq_true_eq] at hreach
          have hvt : (mkSnapshot .percentile h (foldStep h s)
              (h.bucketVal (foldStep h s).currentIndex)).percentileLevelIteratedTo
              = s.percentileToIterateTo := by
            simp [mkSnapshot, getPercentileIteratedTo]
          set s2 := incrementIterationLevel k .percentile
            { foldStep h s with
                current := mkSnapshot .percentile h (foldStep h s)
                  (h.bucketVal (foldStep h s).currentIndex)
                prevValueIteratedTo := h.bucketVal (foldStep h s).currentIndex
                totalToPrev := (foldStep h s).totalToCurrent } with hs2
          have hs2t : s2.percentileToIterateTo
              = advanceTarget k s.percentileToIterateTo := by
            simp [hs2, incrementIterationLevel]
          have hs2rl : s2.reachedLast = false := by
            simp [hs2, hrl]
          have hs2idx : s2.currentIndex = s.currentIndex := by
            simp [hs2]
          have hs2tot : s2.totalToCurrent = pfx h (s.currentIndex + 1) := by
            simpa [hs2] using hs3tot
          have hs2fresh : s2.freshSubBucket = false := by
            simp [hs2]
          have hadv := advanceTarget_lt hk ht100
          have hinv2 : PctInv h s2 := by
            refine ⟨hs2rl, ?_, ?_, ?_⟩
            · rw [hs2t]
              exact hadv.2
            · rw [hs2tot, hs2idx, hs2fresh, pfx_succ]
              simp
            · intro _ _
              refine ⟨hs2fresh, ?_⟩
              rw [hs2idx]
              exact hreach.1
          have hIH := IH f (by omega) _ es₁ hrun₁ hinv2
          constructor
          · simp only [targets, List.map_cons]
            rw [List.chain'_cons']
            constructor
            · intro u hu
              have h1 := hIH.2.1 u hu
              rw [hs2t] at h1
              rw [hvt]
              calc s.percentileToIterateTo
                  < advanceTarget k s.percentileToIterateTo := hadv.1
                _ ≤ u := h1
            · exact hIH.1
          constructor
          · intro t htmem
            simp only [targets, List.map_cons, List.head?_cons,
              Option.mem_def, Option.some.injEq] at htmem
            rw [← htmem, hvt]
          constructor
          · intro t htmem
            simp only [targets, List.map_cons, List.mem_cons] at htmem
            rcases htmem with rfl | hmem
            · rw [hvt]
              exact le_of_lt ht100
            · exact hIH.2.2.1 t hmem
          constructor
          · intro h0
            exact absurd h0 hT
          · intro _
            refine ⟨by simp, ?_⟩
            obtain ⟨hne, hlast⟩ := hIH.2.2.2.2 hT
            obtain ⟨x, xs, rfl⟩ := List.exists_cons_of_ne_nil hne
            simp only [targets, List.map_cons] at hlast ⊢
            rw [List.getLast?_cons_cons]
            exact hlast
      · by_cases hT : h.totalCount = 0
        · rw [runAux_succ_stop (loopBody_stop
            (by rw [hasNext_pct_end hb (Or.inr hT)]))] at hrun
          obtain rfl : ([] : List HdrIterationValue) = es :=
            Option.some.inj hrun
          refine ⟨by simp [targets], by simp [targets], by simp [targets],
            fun _ => rfl, fun hT' => absurd hT hT'⟩
        · -- the synthetic terminal 100% step
          have hstot : s.totalToCurrent = h.totalCount :=
            le_antisymm (PctInv.total_le ⟨hrl, ht100, hrepr, hpark⟩)
              (le_of_not_lt hb)
          obtain ⟨hfr, hcnz⟩ := hpark hstot hT
          have hn := hasNext_pct_synth hb hrl hT
          have hfold_tot : (foldStep h { s with percentileToIterateTo := 100, reachedLast := true }).totalToCurrent = h.totalCount := by
            simp [hfr, hstot]
          have hrlvl : reachedIterationLevel .percentile h (foldStep h { s with percentileToIterateTo := 100, reachedLast := true }) = true := by
            simp only [reachedIterationLevel, foldStep_countAtThisValue,
              foldStep_percentileToIterateTo, Bool.and_eq_true, bne_iff_ne,
              ne_eq, decide_eq_true_eq]
            refine ⟨hcnz, ?_⟩
            rw [hfold_tot, pct_full hT]
          rw [runAux_succ_emit (loopBody_emit hn hrlvl)] at hrun
          obtain ⟨es₁, hrun₁, hes⟩ := Option.map_eq_some'.mp hrun
          subst hes
          have hvt : (mkSnapshot .percentile h (foldStep h { s with percentileToIterateTo := 100, reachedLast := true }) (h.bucketVal (foldStep h { s with percentileToIterateTo := 100, reachedLast := true }).currentIndex)).percentileLevelIteratedTo = 100 := by
            simp [mkSnapshot, getPercentileIteratedTo]
          have hes1 : es₁ = [] := by
            refine pct_run_done k h f _ es₁ hrun₁ (by simp) ?_
            simp only [incrementIterationLevel_totalToCurrent]
            rw [hfold_tot]
            omega
          subst hes1
          refine ⟨by simp [targets], ?_, ?_, fun h0 => absurd h0 hT, ?_⟩
          · intro t htmem
            simp only [targets, List.map_cons, List.map_nil,
              List.head?_cons, Option.mem_def, Option.some.injEq] at htmem
            rw [← htmem, hvt]
            exact le_of_lt ht100
          · intro t htmem
            simp only [targets, List.map_cons, List.map_nil,
              List.mem_singleton] at htmem
            subst htmem
            rw [hvt]
          · intro _
            refine ⟨by simp, ?_⟩
            simp [targets, mkSnapshot, getPercentileIteratedTo]

/-- The executable rational target-advance agrees with the verbatim
real-number embedding of the source arithmetic on the reachable domain
(`t ≤ 100`, positive ticks): the exact model loses nothing. -/
lemma advanceTarget_agrees (k t : ℚ) (hk : 0 < k) (ht : t ≤ 100) :
    ((advanceTarget k t : ℚ) : ℝ) = advanceTargetSrc (k : ℝ) (t : ℝ) := by
  have hk' : (0 : ℝ) < (k : ℚ) := by exact_mod_cast hk
  rcases eq_or_lt_of_le ht with rfl | hlt
  · rw [(advanceTargetSrc_spec (k : ℝ) ((100 : ℚ) : ℝ) hk').1 (by push_cast; ring),
      advanceTarget_at_100]
  · have hgap : (0 : ℝ) < 100 - (t : ℝ) := by
      have : (0 : ℚ) < 100 - t := by linarith
      exact_mod_cast this
    rw [(advanceTargetSrc_spec (k : ℝ) (t : ℝ) hk').2 hgap,
      advanceTarget, if_neg (by intro hh; rw [sub_eq_zero] at hh; linarith)]
    push_cast
    ring

/-- C1 counterexample: with the positive tick count `ticks = 1/4`, the
target recurrence overshoots (`0 → 200`), the cursor walks past the last
populated bucket while chasing the impossible target, and the synthetic
100% step then lands on a zero-count bucket and never emits: over
`counts = [3, 2, 0, 0]` (`total_count = 5 > 0`) the complete traversal's
target sequence is `[0]` — its final emission's target is `0`, not `100`. -/
theorem percentile_small_ticks_counterexample :
    (0 : ℚ) < 1 / 4 ∧
    HdrHistogram.totalCount ⟨[3, 2, 0, 0], fun i => i, 1⟩ ≠ 0 ∧
    (emissions .percentile (1 / 4) ⟨[3, 2, 0, 0], fun i => i, 1⟩ 10).map targets
      = some [0] := by
  refine ⟨by norm_num, by decide, ?_⟩
  norm_num [emissions, runAux, loopBody, hasNext, foldStep,
    reachedIterationLevel, incrementIterationLevel, incrementSubBucket,
    mkSnapshot, getPercentileIteratedTo, advanceTarget, initState, targets,
    HdrHistogram.countAt, HdrHistogram.totalCount, HdrHistogram.countsLen]

/-- C1 amended: for every histogram and every tick count with
`2 * ticks > 1` (no overshoot; in particular every `ticks ≥ 1`), the target
sequence across the emissions of any complete `PercentileIterator`
traversal is strictly increasing and bounded by `100.0`; when
`total_count > 0` the traversal is nonempty and its final emission's target
is exactly `100.0`, and when `total_count = 0` there are no emissions at
all.  (For `0 < ticks ≤ 1/2` the property fails, see the counterexample.) -/
theorem percentile_target_sequence (h : HdrHistogram) (k : ℚ) (f : Nat)
    (es : List HdrIterationValue) (hk : 1 < 2 * k)
    (hrun : emissions .percentile k h f = some es) :
    (targets es).Pairwise (· < ·) ∧
    (∀ t ∈ targets es, t ≤ 100) ∧
    (h.totalCount ≠ 0 → es ≠ [] ∧ (targets es).getLast? = some 100) ∧
    (h.totalCount = 0 → es = []) := by
  have hmain := pct_run_main k h hk f initState es hrun (PctInv.initState h)
  exact ⟨List.chain'_iff_pairwise.mp hmain.1, hmain.2.2.1,
    hmain.2.2.2.2, hmain.2.2.2.1⟩

/-- Witness for C1's amended theorem: with `ticks = 1` over
`counts = [2, 3]` the complete traversal exists (its target sequence is
`[0, 50, 100]`) and its final emission's target is exactly 100. -/
theorem percentile_target_sequence_witness :
    1 < 2 * (1 : ℚ) ∧
    emissions .percentile 1 ⟨[2, 3], fun i => i, 1⟩ 8
      = some ((emissions .percentile 1 ⟨[2, 3], fun i => i, 1⟩ 8).getD []) ∧
    HdrHistogram.totalCount ⟨[2, 3], fun i => i, 1⟩ ≠ 0 ∧
    (targets ((emissions .percentile 1 ⟨[2, 3], fun i => i, 1⟩ 8).getD
      [])).getLast? = some 100 := by
  have hrun : emissions .percentile 1 ⟨[2, 3], fun i => i, 1⟩ 8
      = some ((emissions .percentile 1 ⟨[2, 3], fun i => i, 1⟩ 8).getD []) := by
    norm_num [emissions, runAux, loopBody, hasNext, foldStep,
      reachedIterationLevel, incrementIterationLevel, incrementSubBucket,
      mkSnapshot, getPercentileIteratedTo, advanceTarget, initState,
      HdrHistogram.countAt, HdrHistogram.totalCount, HdrHistogram.countsLen]
  refine ⟨by norm_num, hrun, by decide, ?_⟩
  exact ((percentile_target_sequence ⟨[2, 3], fun i => i, 1⟩ 1 8 _
    (by norm_num) hrun).2.2.1 (by decide)).2

end Toolbox.Hdr
